import Mathlib

/-!
Shallow embedding of the expense-splitting core of `src/src/App.jsx`:
the `balances` useMemo (lines 89-106) and `calculateSettlements`
(lines 170-215).

Modelling choices:
* JavaScript floating-point numbers are modelled by exact rationals (`ℚ`).
* `Math.round (x * 100) / 100` (line 177) is `roundCents`;
  `Number.prototype.toFixed 2` on the nonnegative settlement amounts
  (line 202) performs the same round-half-up to a whole number of cents.
* The balance object `bal` is modelled as a total function `String → ℚ`
  (absent keys read as `0`); `Object.entries balances` is the
  roster-ordered entry list `balances`, since the object's keys are
  created in roster order by the initialisation on lines 90-91.
* JavaScript's stable `Array.prototype.sort` with the numeric comparators
  of lines 183-184 is modelled by the stable `List.insertionSort`.
* The `while` loop of lines 192-212 is modelled by the structurally
  recursive `greedyFuel` carrying an explicit iteration budget; the budget
  `debtors.length + creditors.length` passed by `calculateSettlements` is
  proved sufficient (the loop always ends within that many iterations on
  the lists produced by the partition of lines 175-180), so the
  `Option.getD []` fallback is never exercised.
-/

namespace Schneegerverteiler

/-- An expense record; the fields read by the computational core
(`amount`, `payer`, `involved`) plus the displayed `description`. -/
structure Expense where
  amount : ℚ
  description : String
  payer : String
  involved : List String
  deriving DecidableEq, Repr

/-- One step of the `expenses.forEach` loop in the `balances` useMemo
(`App.jsx` lines 93-104): an expense with empty `involved` is skipped,
otherwise the payer is credited with the full amount and every member of
`involved` is debited by `share = amount / involved.length`. -/
def applyExpense (bal : String → ℚ) (exp : Expense) : String → ℚ :=
  if exp.involved.length = 0 then bal
  else
    let share : ℚ := exp.amount / (exp.involved.length : ℚ)
    let bal1 : String → ℚ := fun p => if p = exp.payer then bal p + exp.amount else bal p
    exp.involved.foldl (fun b person => fun p => if p = person then b p - share else b p) bal1

/-- The net balance of every person after folding all expenses over the
zero-initialised balance object (`App.jsx` lines 89-106), as a total
function. -/
def balanceFn (expenses : List Expense) : String → ℚ :=
  expenses.foldl applyExpense (fun _ => 0)

/-- The entry list of the balance object: one entry per roster member, in
roster order (the keys are created by `participants.forEach (p => bal[p] = 0)`
on lines 90-91). -/
def balances (participants : List String) (expenses : List Expense) : List (String × ℚ) :=
  participants.map fun p => (p, balanceFn expenses p)

/-- Rounding to a whole number of cents: `Math.round (x * 100) / 100`
(`App.jsx` line 177), where `Math.round x = ⌊x + 1/2⌋`. -/
def roundCents (q : ℚ) : ℚ := ((⌊q * 100 + 1 / 2⌋ : ℤ) : ℚ) / 100

/-- A debtor/creditor work-list record `{ person, amount }`
(`App.jsx` lines 178-179). -/
structure BEntry where
  person : String
  amount : ℚ
  deriving DecidableEq, Repr

/-- A settlement transaction `{ from, to, amount }` (`App.jsx` lines
199-203).  The JS fields `from` and `to` are called `from_` and `to_`
because both are Lean keywords. -/
structure Txn where
  from_ : String
  to_ : String
  amount : ℚ
  deriving DecidableEq, Repr

/-- The rounded entry list of the balance object (`App.jsx` lines 175-177). -/
def settleEntries (bal : List (String × ℚ)) : List BEntry :=
  bal.map fun pv => ⟨pv.1, roundCents pv.2⟩

/-- Debtor list: entries whose rounded value is `< -0.01` (`App.jsx` line 178). -/
def debtors (bal : List (String × ℚ)) : List BEntry :=
  (settleEntries bal).filter fun e => decide (e.amount < -(1 / 100))

/-- Creditor list: entries whose rounded value is `> 0.01` (`App.jsx` line 179). -/
def creditors (bal : List (String × ℚ)) : List BEntry :=
  (settleEntries bal).filter fun e => decide ((1 / 100) < e.amount)

instance : DecidableRel fun a b : BEntry => a.amount ≤ b.amount :=
  fun _ _ => inferInstanceAs (Decidable (_ ≤ _))

instance : DecidableRel fun a b : BEntry => b.amount ≤ a.amount :=
  fun _ _ => inferInstanceAs (Decidable (_ ≤ _))

/-- Debtors sorted ascending by amount (`App.jsx` line 183, a stable sort). -/
def sortedDebtors (bal : List (String × ℚ)) : List BEntry :=
  List.insertionSort (fun a b => a.amount ≤ b.amount) (debtors bal)

/-- Creditors sorted descending by amount (`App.jsx` line 184, a stable sort). -/
def sortedCreditors (bal : List (String × ℚ)) : List BEntry :=
  List.insertionSort (fun a b => b.amount ≤ a.amount) (creditors bal)

/-- The greedy matching `while` loop (`App.jsx` lines 189-212), carrying an
explicit iteration budget `fuel`; `none` means the budget was exhausted with
both cursors still in bounds.  Each iteration settles
`min |debtor.amount| creditor.amount`, emits the transaction with that amount
rounded to cents (`toFixed 2`, line 202), adjusts both remaining amounts, and
advances past a debtor whose remaining magnitude fell below `0.01` and past a
creditor whose remaining amount fell below `0.01` (lines 210-211). -/
def greedyFuel : Nat → List BEntry → List BEntry → Option (List Txn)
  | _, [], _ => some []
  | _, _ :: _, [] => some []
  | 0, _ :: _, _ :: _ => none
  | fuel + 1, d :: ds, c :: cs =>
    let amountToSettle := min |d.amount| c.amount
    let t : Txn := ⟨d.person, c.person, roundCents amountToSettle⟩
    let dAmt := d.amount + amountToSettle
    let cAmt := c.amount - amountToSettle
    let ds' := if |dAmt| < 1 / 100 then ds else ⟨d.person, dAmt⟩ :: ds
    let cs' := if cAmt < 1 / 100 then cs else ⟨c.person, cAmt⟩ :: cs
    (greedyFuel fuel ds' cs').map fun ts => t :: ts

/-- The settlement algorithm `calculateSettlements` (`App.jsx` lines 170-215):
partition the rounded balances, sort both sides, and run the greedy loop.
The iteration budget `length + length` is proved sufficient, so the
`Option.getD []` fallback (which stands for the unreachable divergence of
the JS loop) is never taken. -/
def calculateSettlements (bal : List (String × ℚ)) : List Txn :=
  (greedyFuel ((sortedDebtors bal).length + (sortedCreditors bal).length)
    (sortedDebtors bal) (sortedCreditors bal)).getD []

/-- Closed form of a single expense's contribution to person `p`'s balance;
used to reason about the fold in `applyExpense`. -/
def expDelta (exp : Expense) (p : String) : ℚ :=
  if exp.involved.length = 0 then 0
  else (if p = exp.payer then exp.amount else 0)
    - (exp.involved.count p : ℚ) * (exp.amount / (exp.involved.length : ℚ))

/-- Predicate: `q` is a whole number of cents (an integer multiple of `0.01`). -/
def centMult (q : ℚ) : Prop := ∃ k : ℤ, q = (k : ℚ) / 100

/-- Total amount person `p` pays across a transaction list
(sum of the amounts of the transactions with `from_ = p`). -/
def paidBy (p : String) (ts : List Txn) : ℚ :=
  ((ts.filter fun t => decide (t.from_ = p)).map Txn.amount).sum

/-- Total amount person `p` receives across a transaction list
(sum of the amounts of the transactions with `to_ = p`). -/
def receivedBy (p : String) (ts : List Txn) : ℚ :=
  ((ts.filter fun t => decide (t.to_ = p)).map Txn.amount).sum

/-- Applying every emitted transaction back to a balance map, in the sense
of claim C2: a payment raises the payer's (negative) balance and lowers the
receiver's (positive) balance — exactly the adjustment the algorithm itself
performs on its work lists (`App.jsx` lines 206-207). -/
def applySettlements (ts : List Txn) (bal : List (String × ℚ)) : List (String × ℚ) :=
  bal.map fun pv => (pv.1, pv.2 + paidBy pv.1 ts - receivedBy pv.1 ts)

/-! ### Balance-side lemmas -/

lemma sum_map_add {α : Type*} (l : List α) (f g : α → ℚ) :
    (l.map fun p => f p + g p).sum = (l.map f).sum + (l.map g).sum := by
  induction l with
  | nil => simp
  | cons x xs ih => simp only [List.map_cons, List.sum_cons, ih]; ring

lemma sum_map_sub {α : Type*} (l : List α) (f g : α → ℚ) :
    (l.map fun p => f p - g p).sum = (l.map f).sum - (l.map g).sum := by
  induction l with
  | nil => simp
  | cons x xs ih => simp only [List.map_cons, List.sum_cons, ih]; ring

lemma sum_map_ite_eq {α M : Type*} [DecidableEq α] [AddCommMonoid M] {l : List α} {a : α}
    (hnd : l.Nodup) (ha : a ∈ l) (x : M) :
    (l.map fun p => if p = a then x else 0).sum = x := by
  induction l with
  | nil => cases ha
  | cons b bs ih =>
    rcases List.mem_cons.mp ha with rfl | hmem
    · have hnotin : a ∉ bs := (List.nodup_cons.mp hnd).1
      have hz : (bs.map fun p => if p = a then x else 0).sum = 0 := by
        refine List.sum_eq_zero fun y hy => ?_
        obtain ⟨p, hp, rfl⟩ := List.mem_map.mp hy
        exact if_neg fun (h : p = a) => hnotin (h ▸ hp)
      simp [hz]
    · have hba : b ≠ a := by rintro rfl; exact (List.nodup_cons.mp hnd).1 hmem
      simp [if_neg hba, ih (List.nodup_cons.mp hnd).2 hmem]

lemma foldl_debit (l : List String) (b0 : String → ℚ) (share : ℚ) (p : String) :
    (l.foldl (fun b person => fun q => if q = person then b q - share else b q) b0) p
      = b0 p - (l.count p : ℚ) * share := by
  induction l generalizing b0 with
  | nil => simp
  | cons x xs ih =>
    rw [List.foldl_cons, ih]
    by_cases hpx : p = x
    · subst hpx
      simp [List.count_cons]
      ring
    · simp [List.count_cons, hpx, Ne.symm hpx]

lemma applyExpense_apply (bal : String → ℚ) (exp : Expense) (p : String) :
    applyExpense bal exp p = bal p + expDelta exp p := by
  by_cases h : exp.involved.length = 0
  · simp [applyExpense, expDelta, h]
  · simp only [applyExpense, expDelta, h, if_neg, if_false]
    rw [foldl_debit]
    by_cases hp : p = exp.payer <;> simp [hp] <;> ring

lemma sum_count_cast (roster involved : List String)
    (hnd : roster.Nodup) (hsub : ∀ x ∈ involved, x ∈ roster) :
    (roster.map fun p => (involved.count p : ℚ)).sum = (involved.length : ℚ) := by
  induction involved with
  | nil => simp
  | cons x xs ih =>
    have hx : x ∈ roster := hsub x (List.mem_cons_self x xs)
    have hxs : ∀ y ∈ xs, y ∈ roster := fun y hy => hsub y (List.mem_cons_of_mem _ hy)
    have hcount : ∀ p : String, ((x :: xs).count p : ℚ)
        = (xs.count p : ℚ) + (if p = x then (1 : ℚ) else 0) := by
      intro p
      by_cases hpx : p = x
      · subst hpx
        simp [List.count_cons]
      · have : (x == p) = false := by simpa using fun h => hpx h.symm
        simp [List.count_cons, this, hpx]
    rw [List.map_congr_left fun p _ => hcount p, sum_map_add, ih hxs,
      sum_map_ite_eq hnd hx (1 : ℚ)]
    push_cast [List.length_cons]
    ring

lemma sum_expDelta (roster : List String) (exp : Expense)
    (hnd : roster.Nodup) (hp : exp.payer ∈ roster)
    (hi : ∀ x ∈ exp.involved, x ∈ roster) :
    (roster.map fun p => expDelta exp p).sum = 0 := by
  by_cases h : exp.involved.length = 0
  · simp [expDelta, h]
  · have hfun : ∀ p ∈ roster, expDelta exp p
        = (if p = exp.payer then exp.amount else 0)
          - (exp.involved.count p : ℚ) * (exp.amount / (exp.involved.length : ℚ)) := by
      intro p _
      simp [expDelta, h]
    rw [List.map_congr_left hfun, sum_map_sub, sum_map_ite_eq hnd hp,
      List.sum_map_mul_right, sum_count_cast roster exp.involved hnd hi]
    have hne : (exp.involved.length : ℚ) ≠ 0 := Nat.cast_ne_zero.mpr h
    rw [mul_comm, div_mul_cancel₀ _ hne]
    ring

lemma sum_balanceFn (roster : List String) (expenses : List Expense)
    (hnd : roster.Nodup)
    (hok : ∀ e ∈ expenses, e.payer ∈ roster ∧ ∀ x ∈ e.involved, x ∈ roster) :
    (roster.map fun p => balanceFn expenses p).sum = 0 := by
  have key : ∀ (exps : List Expense),
      (∀ e ∈ exps, e.payer ∈ roster ∧ ∀ x ∈ e.involved, x ∈ roster) →
      ∀ b0 : String → ℚ,
      (roster.map fun p => (exps.foldl applyExpense b0) p).sum = (roster.map b0).sum := by
    intro exps
    induction exps with
    | nil => intro _ b0; rfl
    | cons e rest ih =>
      intro hall b0
      rw [List.foldl_cons, ih (fun e' he' => hall e' (List.mem_cons_of_mem _ he'))]
      have he := hall e (List.mem_cons_self e rest)
      have : (roster.map fun p => applyExpense b0 e p).sum
          = (roster.map fun p => b0 p + expDelta e p).sum := by
        exact congrArg List.sum (List.map_congr_left fun p _ => applyExpense_apply b0 e p)
      rw [List.map_congr_left fun p _ => applyExpense_apply b0 e p, sum_map_add,
        sum_expDelta roster e hnd he.1 he.2]
      simp
  have h0 : (roster.map fun _ : String => (0 : ℚ)).sum = 0 := by simp
  calc (roster.map fun p => balanceFn expenses p).sum
      = (roster.map fun _ : String => (0 : ℚ)).sum := key expenses hok _
    _ = 0 := h0

/-- C1: for every participant roster (with distinct names, as the keys of the
JS balance object are) and every expense list whose payers and involved
members are drawn from the roster, the values of the computed balance map sum
to zero, in particular to within `0.01` of zero.  (In the exact-rational
model the sum is exactly zero; the `0.01` slack of the claim only absorbs
floating-point error.) -/
theorem balances_zero_sum (roster : List String) (expenses : List Expense)
    (hnd : roster.Nodup)
    (hok : ∀ e ∈ expenses, e.payer ∈ roster ∧ ∀ x ∈ e.involved, x ∈ roster) :
    |((balances roster expenses).map Prod.snd).sum| ≤ 1 / 100 := by
  have h : ((balances roster expenses).map Prod.snd).sum = 0 := by
    have : (balances roster expenses).map Prod.snd
        = roster.map fun p => balanceFn expenses p := by
      simp [balances, List.map_map, Function.comp]
    rw [this, sum_balanceFn roster expenses hnd hok]
  rw [h]
  norm_num

/-- Witness for C1 at a concrete roster and expense list. -/
theorem balances_zero_sum_witness :
    |((balances ["A", "B", "C"]
        [⟨30, "chalet groceries", "A", ["A", "B", "C"]⟩,
         ⟨7, "coffee", "B", ["C"]⟩]).map Prod.snd).sum| ≤ 1 / 100 := by
  refine balances_zero_sum _ _ (by decide) ?_
  intro e he
  rcases List.mem_cons.mp he with rfl | he'
  · exact ⟨by decide, by decide⟩
  · rcases List.mem_cons.mp he' with rfl | he''
    · exact ⟨by decide, by decide⟩
    · cases he''

lemma balanceFn_single (exp : Expense) (p : String) :
    balanceFn [exp] p = expDelta exp p := by
  have := applyExpense_apply (fun _ => 0) exp p
  simpa [balanceFn] using this

/-- C3: a single expense of amount `A` over an involved set of `k` distinct
members credits the payer with exactly `A` and debits every involved member
by `A / k`; a payer who is also involved therefore nets `A - A / k`. -/
theorem single_expense_shares (exp : Expense) (k : ℕ)
    (hk : exp.involved.length = k) (hne : exp.involved ≠ [])
    (hnd : exp.involved.Nodup) :
    (exp.payer ∉ exp.involved → balanceFn [exp] exp.payer = exp.amount) ∧
    (∀ p ∈ exp.involved, p ≠ exp.payer →
      balanceFn [exp] p = -(exp.amount / (k : ℚ))) ∧
    (exp.payer ∈ exp.involved →
      balanceFn [exp] exp.payer = exp.amount - exp.amount / (k : ℚ)) := by
  have hlen : exp.involved.length ≠ 0 := fun h => hne (List.length_eq_zero.mp h)
  have hk0 : k ≠ 0 := hk ▸ hlen
  refine ⟨?_, ?_, ?_⟩
  · intro hnotin
    rw [balanceFn_single]
    simp [expDelta, hlen, List.count_eq_zero_of_not_mem hnotin]
  · intro p hp hne'
    rw [balanceFn_single]
    have h1 : exp.involved.count p = 1 := List.count_eq_one_of_mem hnd hp
    simp [expDelta, hlen, hne', h1, hk, hk0]
  · intro hin
    rw [balanceFn_single]
    have h1 : exp.involved.count exp.payer = 1 := List.count_eq_one_of_mem hnd hin
    simp [expDelta, hlen, h1, hk, hk0]

/-- Witness for C3 at a concrete single expense. -/
theorem single_expense_shares_witness :
    (("A" : String) ∉ (["A", "B", "C"] : List String) →
      balanceFn [⟨30, "chalet groceries", "A", ["A", "B", "C"]⟩] "A" = 30) ∧
    (∀ p ∈ (["A", "B", "C"] : List String), p ≠ "A" →
      balanceFn [⟨30, "chalet groceries", "A", ["A", "B", "C"]⟩] p = -(30 / (3 : ℚ))) ∧
    (("A" : String) ∈ (["A", "B", "C"] : List String) →
      balanceFn [⟨30, "chalet groceries", "A", ["A", "B", "C"]⟩] "A" = 30 - 30 / (3 : ℚ)) :=
  single_expense_shares ⟨30, "chalet groceries", "A", ["A", "B", "C"]⟩ 3
    (by decide) (by decide) (by decide)

/-- C8: an expense whose `involved` list is empty contributes nothing: the
balance map computed from any expense list containing it equals the balance
map computed with that expense removed.  The guard on `App.jsx` line 95 skips
the expense before the division by `involved.length`, so in this model the
computation is total and no division by zero is ever performed. -/
theorem empty_involved_skipped (participants : List String) (l1 l2 : List Expense)
    (exp : Expense) (h : exp.involved = []) :
    balances participants (l1 ++ exp :: l2) = balances participants (l1 ++ l2) := by
  have hskip : ∀ b0 : String → ℚ, applyExpense b0 exp = b0 := by
    intro b0
    simp [applyExpense, h]
  have hfold : ∀ b0 : String → ℚ,
      (l1 ++ exp :: l2).foldl applyExpense b0 = (l1 ++ l2).foldl applyExpense b0 := by
    intro b0
    rw [List.foldl_append, List.foldl_append, List.foldl_cons, hskip]
  simp [balances, balanceFn, hfold]

/-- Witness for C8 at a concrete roster and expense list. -/
theorem empty_involved_skipped_witness :
    balances ["A", "B", "C"]
        ([⟨12, "beers", "B", ["B", "C"]⟩] ++ ⟨10, "ghost", "A", []⟩ :: []) =
      balances ["A", "B", "C"] ([⟨12, "beers", "B", ["B", "C"]⟩] ++ []) :=
  empty_involved_skipped ["A", "B", "C"] [⟨12, "beers", "B", ["B", "C"]⟩] []
    ⟨10, "ghost", "A", []⟩ rfl

/-! ### Rounding and cent-multiple lemmas -/

lemma roundCents_centMult (q : ℚ) : centMult (roundCents q) :=
  ⟨⌊q * 100 + 1 / 2⌋, rfl⟩

lemma centMult_roundCents {q : ℚ} (h : centMult q) : roundCents q = q := by
  obtain ⟨k, rfl⟩ := h
  unfold roundCents
  have h1 : (k : ℚ) / 100 * 100 + 1 / 2 = 1 / 2 + (k : ℚ) := by
    rw [div_mul_cancel₀ _ (by norm_num : (100 : ℚ) ≠ 0)]
    ring
  rw [h1, Int.floor_add_int]
  push_cast
  norm_num

lemma roundCents_mono {a b : ℚ} (hab : a ≤ b) : roundCents a ≤ roundCents b := by
  unfold roundCents
  have h := Int.floor_mono (show a * 100 + 1 / 2 ≤ b * 100 + 1 / 2 by linarith)
  have h' : ((⌊a * 100 + 1 / 2⌋ : ℤ) : ℚ) ≤ ((⌊b * 100 + 1 / 2⌋ : ℤ) : ℚ) := by
    exact_mod_cast h
  linarith

lemma centMult.add {a b : ℚ} (ha : centMult a) (hb : centMult b) : centMult (a + b) := by
  obtain ⟨k, rfl⟩ := ha
  obtain ⟨m, rfl⟩ := hb
  exact ⟨k + m, by push_cast; ring⟩

lemma centMult.neg {a : ℚ} (ha : centMult a) : centMult (-a) := by
  obtain ⟨k, rfl⟩ := ha
  exact ⟨-k, by push_cast; ring⟩

lemma centMult.sub {a b : ℚ} (ha : centMult a) (hb : centMult b) : centMult (a - b) := by
  obtain ⟨k, rfl⟩ := ha
  obtain ⟨m, rfl⟩ := hb
  exact ⟨k - m, by push_cast; ring⟩

lemma centMult.min {a b : ℚ} (ha : centMult a) (hb : centMult b) : centMult (min a b) := by
  rcases min_cases a b with ⟨h, _⟩ | ⟨h, _⟩ <;> rw [h] <;> assumption

lemma centMult.abs {a : ℚ} (ha : centMult a) : centMult |a| := by
  rcases abs_cases a with ⟨h, _⟩ | ⟨h, _⟩ <;> rw [h]
  · exact ha
  · exact ha.neg

lemma centMult.eq_zero {q : ℚ} (h : centMult q) (hq : |q| < 1 / 100) : q = 0 := by
  obtain ⟨k, rfl⟩ := h
  have h2 : |(k : ℚ) / 100| = |(k : ℚ)| / 100 := by
    rw [abs_div]
    norm_num
  rw [h2] at hq
  have h3 : |(k : ℚ)| < 1 := by linarith
  have h4 : |k| < 1 := by
    rw [← Int.cast_abs] at h3
    exact_mod_cast h3
  have h5 : k = 0 := by
    rcases abs_lt.mp h4 with ⟨h6, h7⟩
    omega
  simp [h5]

/-! ### Work-list membership lemmas -/

lemma mem_settleEntries_cent {bal : List (String × ℚ)} {e : BEntry}
    (he : e ∈ settleEntries bal) : centMult e.amount := by
  obtain ⟨pv, _, rfl⟩ := List.mem_map.mp he
  exact roundCents_centMult _

lemma mem_debtors_amount {bal : List (String × ℚ)} {e : BEntry}
    (he : e ∈ debtors bal) : e.amount < -(1 / 100) := by
  have := List.of_mem_filter he
  simpa using this

lemma mem_creditors_amount {bal : List (String × ℚ)} {e : BEntry}
    (he : e ∈ creditors bal) : (1 / 100 : ℚ) < e.amount := by
  have := List.of_mem_filter he
  simpa using this

lemma mem_sortedDebtors {bal : List (String × ℚ)} {e : BEntry} :
    e ∈ sortedDebtors bal ↔ e ∈ debtors bal :=
  (List.perm_insertionSort _ _).mem_iff

lemma mem_sortedCreditors {bal : List (String × ℚ)} {e : BEntry} :
    e ∈ sortedCreditors bal ↔ e ∈ creditors bal :=
  (List.perm_insertionSort _ _).mem_iff

lemma sortedDebtors_neg (bal : List (String × ℚ)) :
    ∀ d ∈ sortedDebtors bal, d.amount < 0 := by
  intro d hd
  have := mem_debtors_amount (mem_sortedDebtors.mp hd)
  linarith

lemma sortedDebtors_cent (bal : List (String × ℚ)) :
    ∀ d ∈ sortedDebtors bal, centMult d.amount := fun d hd =>
  mem_settleEntries_cent (List.mem_of_mem_filter (mem_sortedDebtors.mp hd))

lemma sortedCreditors_pos (bal : List (String × ℚ)) :
    ∀ c ∈ sortedCreditors bal, 0 < c.amount := by
  intro c hc
  have := mem_creditors_amount (mem_sortedCreditors.mp hc)
  linarith

lemma sortedCreditors_cent (bal : List (String × ℚ)) :
    ∀ c ∈ sortedCreditors bal, centMult c.amount := fun c hc =>
  mem_settleEntries_cent (List.mem_of_mem_filter (mem_sortedCreditors.mp hc))

/-! ### The greedy loop: termination within the iteration budget -/

lemma greedyFuel_succ (fuel : Nat) (d c : BEntry) (ds cs : List BEntry) :
    greedyFuel (fuel + 1) (d :: ds) (c :: cs) =
      (greedyFuel fuel
          (if abs (d.amount + min (abs d.amount) c.amount) < 1 / 100 then ds
            else ⟨d.person, d.amount + min (abs d.amount) c.amount⟩ :: ds)
          (if c.amount - min (abs d.amount) c.amount < 1 / 100 then cs
            else ⟨c.person, c.amount - min (abs d.amount) c.amount⟩ :: cs)).map
        fun ts => ⟨d.person, c.person, roundCents (min (abs d.amount) c.amount)⟩ :: ts :=
  rfl

lemma greedy_step_drop {d c : BEntry} (hd : d.amount < 0) :
    abs (d.amount + min (abs d.amount) c.amount) < 1 / 100 ∨
      c.amount - min (abs d.amount) c.amount < 1 / 100 := by
  rcases min_cases (abs d.amount) c.amount with ⟨hmin, _⟩ | ⟨hmin, _⟩
  · left
    rw [hmin, abs_of_neg hd]
    norm_num
  · right
    rw [hmin]
    norm_num

lemma greedy_step_dAmt_nonpos {d c : BEntry} (hd : d.amount < 0) :
    d.amount + min (abs d.amount) c.amount ≤ 0 := by
  rw [abs_of_neg hd]
  have h := min_le_left (-d.amount) c.amount
  linarith

lemma greedy_step_cAmt_nonneg (d c : BEntry) :
    0 ≤ c.amount - min (abs d.amount) c.amount := by
  have h := min_le_right (abs d.amount) c.amount
  linarith

lemma greedyFuel_total : ∀ (fuel : Nat) (ds cs : List BEntry),
    (∀ d ∈ ds, d.amount < 0) → ds.length + cs.length ≤ fuel →
    ∃ ts, greedyFuel fuel ds cs = some ts := by
  intro fuel
  induction fuel with
  | zero =>
    intro ds cs _ hlen
    have hds : ds = [] := by
      cases ds with
      | nil => rfl
      | cons x xs => simp at hlen
    subst hds
    exact ⟨[], rfl⟩
  | succ fuel ih =>
    intro ds cs hneg hlen
    match ds, cs with
    | [], _ => exact ⟨[], rfl⟩
    | d :: ds', [] => exact ⟨[], rfl⟩
    | d :: ds', c :: cs' =>
      rw [greedyFuel_succ]
      have hd0 : d.amount < 0 := hneg d (List.mem_cons_self d ds')
      have hdrop := greedy_step_drop (c := c) hd0
      have hstep :
          (if abs (d.amount + min (abs d.amount) c.amount) < 1 / 100 then ds'
            else ⟨d.person, d.amount + min (abs d.amount) c.amount⟩ :: ds').length +
          (if c.amount - min (abs d.amount) c.amount < 1 / 100 then cs'
            else ⟨c.person, c.amount - min (abs d.amount) c.amount⟩ :: cs').length ≤ fuel := by
        simp only [List.length_cons] at hlen
        by_cases h1 : abs (d.amount + min (abs d.amount) c.amount) < 1 / 100 <;>
          by_cases h2 : c.amount - min (abs d.amount) c.amount < 1 / 100 <;>
          simp only [h1, h2, if_true, if_false, List.length_cons, if_pos, if_neg,
            not_false_iff] <;>
          first
            | omega
            | (exfalso; rcases hdrop with h | h
               · exact h1 h
               · exact h2 h)
      have hneg2 : ∀ x ∈
          (if abs (d.amount + min (abs d.amount) c.amount) < 1 / 100 then ds'
            else ⟨d.person, d.amount + min (abs d.amount) c.amount⟩ :: ds'),
          x.amount < 0 := by
        intro x hx
        by_cases h1 : abs (d.amount + min (abs d.amount) c.amount) < 1 / 100
        · rw [if_pos h1] at hx
          exact hneg x (List.mem_cons_of_mem _ hx)
        · rw [if_neg h1] at hx
          rcases List.mem_cons.mp hx with rfl | hx'
          · have hle := greedy_step_dAmt_nonpos (c := c) hd0
            have hne : d.amount + min (abs d.amount) c.amount ≠ 0 := by
              intro h0
              exact h1 (by rw [h0]; norm_num)
            exact lt_of_le_of_ne hle hne
          · exact hneg x (List.mem_cons_of_mem _ hx')
      obtain ⟨ts, hts⟩ := ih _ _ hneg2 hstep
      exact ⟨_, by rw [hts]; rfl⟩



lemma settlement_budget_some (bal : List (String × ℚ)) :
    greedyFuel ((sortedDebtors bal).length + (sortedCreditors bal).length)
      (sortedDebtors bal) (sortedCreditors bal) = some (calculateSettlements bal) := by
  obtain ⟨ts, hts⟩ :=
    greedyFuel_total ((sortedDebtors bal).length + (sortedCreditors bal).length)
      (sortedDebtors bal) (sortedCreditors bal) (sortedDebtors_neg bal) le_rfl
  rw [hts, calculateSettlements, hts]
  rfl

/-- C6: the greedy matching loop terminates — on the debtor and creditor
lists produced by the partition, the loop ends within
`debtors.length + creditors.length` iterations (when either cursor exhausts
its list), so running it with exactly that iteration budget succeeds and
returns the settlement list. -/
theorem settlement_loop_terminates (bal : List (String × ℚ)) :
    greedyFuel ((sortedDebtors bal).length + (sortedCreditors bal).length)
      (sortedDebtors bal) (sortedCreditors bal) = some (calculateSettlements bal) :=
  settlement_budget_some bal

/-! ### Per-step invariants of the greedy loop -/

lemma greedy_step_neg {d c : BEntry} {ds' : List BEntry}
    (hneg : ∀ x ∈ d :: ds', x.amount < 0) :
    ∀ x ∈ (if abs (d.amount + min (abs d.amount) c.amount) < 1 / 100 then ds'
      else ⟨d.person, d.amount + min (abs d.amount) c.amount⟩ :: ds'), x.amount < 0 := by
  intro x hx
  by_cases h1 : abs (d.amount + min (abs d.amount) c.amount) < 1 / 100
  · rw [if_pos h1] at hx
    exact hneg x (List.mem_cons_of_mem _ hx)
  · rw [if_neg h1] at hx
    rcases List.mem_cons.mp hx with rfl | hx'
    · have hle := greedy_step_dAmt_nonpos (c := c) (hneg d (List.mem_cons_self d ds'))
      have hne : d.amount + min (abs d.amount) c.amount ≠ 0 := by
        intro h0
        exact h1 (by rw [h0]; norm_num)
      exact lt_of_le_of_ne hle hne
    · exact hneg x (List.mem_cons_of_mem _ hx')

lemma greedy_step_len {d c : BEntry} (ds' cs' : List BEntry) (hd : d.amount < 0) :
    (if abs (d.amount + min (abs d.amount) c.amount) < 1 / 100 then ds'
      else ⟨d.person, d.amount + min (abs d.amount) c.amount⟩ :: ds').length +
    (if c.amount - min (abs d.amount) c.amount < 1 / 100 then cs'
      else ⟨c.person, c.amount - min (abs d.amount) c.amount⟩ :: cs').length ≤
    ds'.length + cs'.length + 1 := by
  have hdrop := greedy_step_drop (c := c) hd
  by_cases h1 : abs (d.amount + min (abs d.amount) c.amount) < 1 / 100 <;>
    by_cases h2 : c.amount - min (abs d.amount) c.amount < 1 / 100 <;>
    simp only [h1, h2, if_true, if_false, List.length_cons, if_pos, if_neg,
      not_false_iff] <;>
    first
      | omega
      | (exfalso; rcases hdrop with h | h
         · exact h1 h
         · exact h2 h)

lemma greedyFuel_mem : ∀ (fuel : Nat) (ds cs : List BEntry) (ts : List Txn),
    greedyFuel fuel ds cs = some ts →
    ∀ t ∈ ts, t.from_ ∈ ds.map BEntry.person ∧ t.to_ ∈ cs.map BEntry.person := by
  intro fuel
  induction fuel with
  | zero =>
    intro ds cs ts hts t ht
    match ds, cs, hts with
    | [], _, hts =>
      cases Option.some.inj hts
      cases ht
    | d :: ds', [], hts =>
      cases Option.some.inj hts
      cases ht
  | succ fuel ih =>
    intro ds cs ts hts t ht
    match ds, cs, hts with
    | [], _, hts =>
      cases Option.some.inj hts
      cases ht
    | d :: ds', [], hts =>
      cases Option.some.inj hts
      cases ht
    | d :: ds', c :: cs', hts =>
      rw [greedyFuel_succ] at hts
      obtain ⟨ts', hts', rfl⟩ := Option.map_eq_some'.mp hts
      rcases List.mem_cons.mp ht with rfl | ht'
      · exact ⟨by simp, by simp⟩
      · have hrec := ih _ _ _ hts' t ht'
        constructor
        · rcases List.mem_map.mp hrec.1 with ⟨x, hx, hpx⟩
          by_cases h1 : abs (d.amount + min (abs d.amount) c.amount) < 1 / 100
          · rw [if_pos h1] at hx
            exact List.mem_map.mpr ⟨x, List.mem_cons_of_mem _ hx, hpx⟩
          · rw [if_neg h1] at hx
            rcases List.mem_cons.mp hx with rfl | hx'
            · simp [← hpx]
            · exact List.mem_map.mpr ⟨x, List.mem_cons_of_mem _ hx', hpx⟩
        · rcases List.mem_map.mp hrec.2 with ⟨x, hx, hpx⟩
          by_cases h2 : c.amount - min (abs d.amount) c.amount < 1 / 100
          · rw [if_pos h2] at hx
            exact List.mem_map.mpr ⟨x, List.mem_cons_of_mem _ hx, hpx⟩
          · rw [if_neg h2] at hx
            rcases List.mem_cons.mp hx with rfl | hx'
            · simp [← hpx]
            · exact List.mem_map.mpr ⟨x, List.mem_cons_of_mem _ hx', hpx⟩

lemma greedyFuel_amounts : ∀ (fuel : Nat) (ds cs : List BEntry) (ts : List Txn),
    greedyFuel fuel ds cs = some ts →
    (∀ d ∈ ds, d.amount < 0 ∧ centMult d.amount) →
    (∀ c ∈ cs, 0 < c.amount ∧ centMult c.amount) →
    ∀ t ∈ ts, 0 < t.amount ∧ centMult t.amount := by
  intro fuel
  induction fuel with
  | zero =>
    intro ds cs ts hts _ _ t ht
    match ds, cs, hts with
    | [], _, hts =>
      cases Option.some.inj hts
      cases ht
    | d :: ds', [], hts =>
      cases Option.some.inj hts
      cases ht
  | succ fuel ih =>
    intro ds cs ts hts hd hc t ht
    match ds, cs, hts with
    | [], _, hts =>
      cases Option.some.inj hts
      cases ht
    | d :: ds', [], hts =>
      cases Option.some.inj hts
      cases ht
    | d :: ds', c :: cs', hts =>
      rw [greedyFuel_succ] at hts
      obtain ⟨ts', hts', rfl⟩ := Option.map_eq_some'.mp hts
      have hd0 := hd d (List.mem_cons_self d ds')
      have hc0 := hc c (List.mem_cons_self c cs')
      have hspos : 0 < min (abs d.amount) c.amount :=
        lt_min (abs_pos.mpr (ne_of_lt hd0.1)) hc0.1
      have hscent : centMult (min (abs d.amount) c.amount) := hd0.2.abs.min hc0.2
      rcases List.mem_cons.mp ht with rfl | ht'
      · refine ⟨?_, ?_⟩
        · show 0 < roundCents (min (abs d.amount) c.amount)
          rw [centMult_roundCents hscent]
          exact hspos
        · show centMult (roundCents (min (abs d.amount) c.amount))
          exact roundCents_centMult _
      · refine ih _ _ _ hts' ?_ ?_ t ht'
        · intro x hx
          by_cases h1 : abs (d.amount + min (abs d.amount) c.amount) < 1 / 100
          · rw [if_pos h1] at hx
            exact hd x (List.mem_cons_of_mem _ hx)
          · rw [if_neg h1] at hx
            rcases List.mem_cons.mp hx with rfl | hx'
            · refine ⟨?_, hd0.2.add hscent⟩
              have hle := greedy_step_dAmt_nonpos (c := c) hd0.1
              have hne : d.amount + min (abs d.amount) c.amount ≠ 0 := by
                intro h0
                exact h1 (by rw [h0]; norm_num)
              exact lt_of_le_of_ne hle hne
            · exact hd x (List.mem_cons_of_mem _ hx')
        · intro x hx
          by_cases h2 : c.amount - min (abs d.amount) c.amount < 1 / 100
          · rw [if_pos h2] at hx
            exact hc x (List.mem_cons_of_mem _ hx)
          · rw [if_neg h2] at hx
            rcases List.mem_cons.mp hx with rfl | hx'
            · refine ⟨?_, hc0.2.sub hscent⟩
              show 0 < c.amount - min (abs d.amount) c.amount
              have h3 := not_lt.mp h2
              linarith
            · exact hc x (List.mem_cons_of_mem _ hx')

lemma greedyFuel_length : ∀ (fuel : Nat) (ds cs : List BEntry) (ts : List Txn),
    greedyFuel fuel ds cs = some ts →
    (∀ d ∈ ds, d.amount < 0) →
    ts.length ≤ ds.length + cs.length - 1 := by
  intro fuel
  induction fuel with
  | zero =>
    intro ds cs ts hts _
    match ds, cs, hts with
    | [], _, hts =>
      cases Option.some.inj hts
      simp
    | d :: ds', [], hts =>
      cases Option.some.inj hts
      simp
  | succ fuel ih =>
    intro ds cs ts hts hneg
    match ds, cs, hts with
    | [], _, hts =>
      cases Option.some.inj hts
      simp
    | d :: ds', [], hts =>
      cases Option.some.inj hts
      simp
    | d :: ds', c :: cs', hts =>
      rw [greedyFuel_succ] at hts
      obtain ⟨ts', hts', rfl⟩ := Option.map_eq_some'.mp hts
      have hd0 : d.amount < 0 := hneg d (List.mem_cons_self d ds')
      have hlen2 := greedy_step_len (c := c) ds' cs' hd0
      have hrec := ih _ _ _ hts' (greedy_step_neg (c := c) hneg)
      simp only [List.length_cons]
      omega

/-- C5: for every balance map, `calculateSettlements` produces at most
`debtors.length + creditors.length - 1` transactions, where the debtors are
the entries with rounded balance below `-0.01` and the creditors those with
rounded balance above `0.01` (the subtraction is ℕ-truncated, so for an
already-settled map the bound reads `0 ≤ 0`). -/
theorem settlements_length_bound (bal : List (String × ℚ)) :
    (calculateSettlements bal).length ≤ (debtors bal).length + (creditors bal).length - 1 := by
  have hb := greedyFuel_length _ _ _ _ (settlement_budget_some bal) (sortedDebtors_neg bal)
  have hd : (sortedDebtors bal).length = (debtors bal).length :=
    (List.perm_insertionSort _ _).length_eq
  have hc : (sortedCreditors bal).length = (creditors bal).length :=
    (List.perm_insertionSort _ _).length_eq
  rw [hd, hc] at hb
  exact hb

/-- C9: every transaction emitted by the settlement algorithm has a positive
amount which is a whole number of cents (the `toFixed 2` output is an exact
two-decimal value). -/
theorem settlement_amounts_pos_cents (bal : List (String × ℚ)) :
    ∀ t ∈ calculateSettlements bal, 0 < t.amount ∧ centMult t.amount := by
  intro t ht
  refine greedyFuel_amounts _ _ _ _ (settlement_budget_some bal) ?_ ?_ t ht
  · exact fun d hd => ⟨sortedDebtors_neg bal d hd, sortedDebtors_cent bal d hd⟩
  · exact fun c hc => ⟨sortedCreditors_pos bal c hc, sortedCreditors_cent bal c hc⟩

lemma settle_example_eval :
    calculateSettlements [("A", 3 / 100), ("B", -(3 / 100))] = [⟨"B", "A", 3 / 100⟩] := by
  norm_num [calculateSettlements, sortedDebtors, sortedCreditors, debtors, creditors,
    settleEntries, roundCents, List.insertionSort, List.orderedInsert, greedyFuel,
    abs_of_nonneg, abs_of_nonpos]

/-- Witness for C9 at a concrete balance map. -/
theorem settlement_amounts_pos_cents_witness :
    0 < (⟨"B", "A", 3 / 100⟩ : Txn).amount ∧ centMult (⟨"B", "A", 3 / 100⟩ : Txn).amount := by
  have hmem : (⟨"B", "A", 3 / 100⟩ : Txn) ∈ calculateSettlements [("A", 3 / 100), ("B", -(3 / 100))] := by
    rw [settle_example_eval]
    exact List.mem_singleton.mpr rfl
  exact settlement_amounts_pos_cents [("A", 3 / 100), ("B", -(3 / 100))] _ hmem

/-- C10: when the balance map's keys are distinct (as the keys of a JS object
always are), every emitted transaction has distinct `from` and `to`
participants: no rounded balance can be both below `-0.01` and above `0.01`,
so the debtor and creditor lists are disjoint. -/
theorem settlement_from_ne_to (bal : List (String × ℚ))
    (hnd : (bal.map Prod.fst).Nodup) :
    ∀ t ∈ calculateSettlements bal, t.from_ ≠ t.to_ := by
  intro t ht heq
  have hmem := greedyFuel_mem _ _ _ _ (settlement_budget_some bal) t ht
  obtain ⟨e1, he1, hp1⟩ := List.mem_map.mp hmem.1
  obtain ⟨e2, he2, hp2⟩ := List.mem_map.mp hmem.2
  have he1d : e1 ∈ debtors bal := mem_sortedDebtors.mp he1
  have he2c : e2 ∈ creditors bal := mem_sortedCreditors.mp he2
  have he1e : e1 ∈ settleEntries bal := List.mem_of_mem_filter he1d
  have he2e : e2 ∈ settleEntries bal := List.mem_of_mem_filter he2c
  have hkeys : ((settleEntries bal).map BEntry.person).Nodup := by
    have hmap : (settleEntries bal).map BEntry.person = bal.map Prod.fst := by
      simp [settleEntries, List.map_map, Function.comp]
    rwa [hmap]
  have he12 : e1 = e2 := List.inj_on_of_nodup_map hkeys he1e he2e (by rw [hp1, hp2, heq])
  have h1 := mem_debtors_amount he1d
  have h2 := mem_creditors_amount he2c
  rw [he12] at h1
  linarith

/-- Witness for C10 at a concrete balance map and transaction. -/
theorem settlement_from_ne_to_witness :
    (⟨"B", "A", 3 / 100⟩ : Txn).from_ ≠ (⟨"B", "A", 3 / 100⟩ : Txn).to_ := by
  have hmem : (⟨"B", "A", 3 / 100⟩ : Txn) ∈ calculateSettlements [("A", 3 / 100), ("B", -(3 / 100))] := by
    rw [settle_example_eval]
    exact List.mem_singleton.mpr rfl
  exact settlement_from_ne_to [("A", 3 / 100), ("B", -(3 / 100))] (by decide) _ hmem

/-- C7: if every balance is within `±0.01` of zero, the settlement algorithm
returns the empty transaction list (both partitions are empty, so the loop
never runs). -/
theorem settle_balanced_noop (bal : List (String × ℚ))
    (h : ∀ pv ∈ bal, |pv.2| ≤ 1 / 100) :
    calculateSettlements bal = [] := by
  have hd : debtors bal = [] := by
    rw [debtors, List.filter_eq_nil_iff]
    intro e he
    obtain ⟨pv, hpv, rfl⟩ := List.mem_map.mp he
    have h1 : -(1 / 100) ≤ pv.2 := (abs_le.mp (h pv hpv)).1
    have h2 : -(1 / 100 : ℚ) ≤ roundCents pv.2 := by
      have hm := roundCents_mono h1
      rwa [centMult_roundCents (q := -(1 / 100 : ℚ)) ⟨-1, by norm_num⟩] at hm
    simp only [decide_eq_true_eq, not_lt]
    simpa using h2
  have hc : creditors bal = [] := by
    rw [creditors, List.filter_eq_nil_iff]
    intro e he
    obtain ⟨pv, hpv, rfl⟩ := List.mem_map.mp he
    have h1 : pv.2 ≤ 1 / 100 := (abs_le.mp (h pv hpv)).2
    have h2 : roundCents pv.2 ≤ (1 / 100 : ℚ) := by
      have hm := roundCents_mono h1
      rwa [centMult_roundCents (q := (1 / 100 : ℚ)) ⟨1, by norm_num⟩] at hm
    simp only [decide_eq_true_eq, not_lt]
    simpa using h2
  rw [calculateSettlements, sortedDebtors, sortedCreditors, hd, hc]
  rfl

/-- Witness for C7 at a concrete balanced map. -/
theorem settle_balanced_noop_witness :
    calculateSettlements [("A", 1 / 100), ("B", -(1 / 100)), ("C", 0)] = [] := by
  refine settle_balanced_noop _ ?_
  intro pv hpv
  rcases List.mem_cons.mp hpv with rfl | hpv'
  · norm_num [abs_of_nonneg]
  · rcases List.mem_cons.mp hpv' with rfl | hpv''
    · norm_num [abs_of_nonpos]
    · rcases List.mem_cons.mp hpv'' with rfl | hpv'''
      · norm_num
      · cases hpv'''

/-! ### Bookkeeping lemmas for `paidBy` and `receivedBy` -/

lemma paidBy_nil (p : String) : paidBy p [] = 0 := rfl

lemma receivedBy_nil (p : String) : receivedBy p [] = 0 := rfl

lemma paidBy_cons (p : String) (t : Txn) (ts : List Txn) :
    paidBy p (t :: ts) = (if t.from_ = p then t.amount else 0) + paidBy p ts := by
  by_cases h : t.from_ = p <;> simp [paidBy, List.filter_cons, h]

lemma receivedBy_cons (p : String) (t : Txn) (ts : List Txn) :
    receivedBy p (t :: ts) = (if t.to_ = p then t.amount else 0) + receivedBy p ts := by
  by_cases h : t.to_ = p <;> simp [receivedBy, List.filter_cons, h]

lemma paidBy_eq_zero {p : String} {ts : List Txn} (h : ∀ t ∈ ts, t.from_ ≠ p) :
    paidBy p ts = 0 := by
  have hf : ts.filter (fun t => decide (t.from_ = p)) = [] :=
    List.filter_eq_nil_iff.mpr (by intro t ht; simpa using h t ht)
  rw [paidBy, hf]
  rfl

lemma receivedBy_eq_zero {p : String} {ts : List Txn} (h : ∀ t ∈ ts, t.to_ ≠ p) :
    receivedBy p ts = 0 := by
  have hf : ts.filter (fun t => decide (t.to_ = p)) = [] :=
    List.filter_eq_nil_iff.mpr (by intro t ht; simpa using h t ht)
  rw [receivedBy, hf]
  rfl

lemma paidBy_greedy_zero {fuel : Nat} {ds cs : List BEntry} {ts : List Txn} {p : String}
    (hts : greedyFuel fuel ds cs = some ts) (hp : p ∉ ds.map BEntry.person) :
    paidBy p ts = 0 :=
  paidBy_eq_zero fun t ht heq => hp (heq ▸ (greedyFuel_mem fuel ds cs ts hts t ht).1)

lemma receivedBy_greedy_zero {fuel : Nat} {ds cs : List BEntry} {ts : List Txn} {p : String}
    (hts : greedyFuel fuel ds cs = some ts) (hp : p ∉ cs.map BEntry.person) :
    receivedBy p ts = 0 :=
  receivedBy_eq_zero fun t ht heq => hp (heq ▸ (greedyFuel_mem fuel ds cs ts hts t ht).2)

lemma sum_amounts_pos (l : List BEntry) (h : ∀ x ∈ l, 0 < x.amount) (hne : l ≠ []) :
    0 < (l.map BEntry.amount).sum := by
  refine List.sum_pos _ ?_ ?_
  · intro x hx
    obtain ⟨e, he, rfl⟩ := List.mem_map.mp hx
    exact h e he
  · simpa using hne

lemma sum_map_neg_amounts (l : List BEntry) :
    (l.map fun x => -x.amount).sum = -((l.map BEntry.amount).sum) := by
  induction l with
  | nil => simp
  | cons x xs ih =>
    simp only [List.map_cons, List.sum_cons, ih]
    ring

lemma sum_amounts_neg (l : List BEntry) (h : ∀ x ∈ l, x.amount < 0) (hne : l ≠ []) :
    (l.map BEntry.amount).sum < 0 := by
  have hmap := sum_map_neg_amounts l
  have hpos : 0 < (l.map fun x => -x.amount).sum := by
    refine List.sum_pos _ ?_ ?_
    · intro x hx
      obtain ⟨e, he, rfl⟩ := List.mem_map.mp hx
      linarith [h e he]
    · simpa using hne
  rw [hmap] at hpos
  linarith

lemma paidBy_cons_eq {p : String} {t : Txn} (ts : List Txn) (h : t.from_ = p) :
    paidBy p (t :: ts) = t.amount + paidBy p ts := by
  rw [paidBy_cons, if_pos h]

lemma paidBy_cons_ne {p : String} {t : Txn} (ts : List Txn) (h : t.from_ ≠ p) :
    paidBy p (t :: ts) = paidBy p ts := by
  rw [paidBy_cons, if_neg h, zero_add]

lemma receivedBy_cons_eq {p : String} {t : Txn} (ts : List Txn) (h : t.to_ = p) :
    receivedBy p (t :: ts) = t.amount + receivedBy p ts := by
  rw [receivedBy_cons, if_pos h]

lemma receivedBy_cons_ne {p : String} {t : Txn} (ts : List Txn) (h : t.to_ ≠ p) :
    receivedBy p (t :: ts) = receivedBy p ts := by
  rw [receivedBy_cons, if_neg h, zero_add]

/-- Exact bookkeeping of the greedy loop on matched work lists: when every
debtor amount is a negative whole number of cents, every creditor amount a
positive whole number of cents, the two sides cancel exactly, and each side
lists distinct persons, the loop pays off every debtor's full debt, pays
every creditor their full credit, and the transaction total equals the total
credit. -/
lemma greedyFuel_exact : ∀ (fuel : Nat) (ds cs : List BEntry) (ts : List Txn),
    greedyFuel fuel ds cs = some ts →
    (∀ d ∈ ds, d.amount < 0 ∧ centMult d.amount) →
    (∀ c ∈ cs, 0 < c.amount ∧ centMult c.amount) →
    (ds.map BEntry.amount).sum + (cs.map BEntry.amount).sum = 0 →
    (ds.map BEntry.person).Nodup →
    (cs.map BEntry.person).Nodup →
    (∀ d ∈ ds, paidBy d.person ts = -d.amount) ∧
    (∀ c ∈ cs, receivedBy c.person ts = c.amount) ∧
    (ts.map Txn.amount).sum = (cs.map BEntry.amount).sum := by
  intro fuel
  induction fuel with
  | zero =>
    intro ds cs ts hts hd hc hsum _ _
    match ds, cs, hts with
    | [], cs, hts =>
      cases Option.some.inj hts
      have hcs : cs = [] := by
        by_contra hne
        have := sum_amounts_pos cs (fun x hx => (hc x hx).1) hne
        simp only [List.map_nil, List.sum_nil, zero_add] at hsum
        linarith
      subst hcs
      exact ⟨fun d hd' => absurd hd' (List.not_mem_nil d),
        fun c hc' => absurd hc' (List.not_mem_nil c), by simp⟩
    | d :: ds', [], hts =>
      cases Option.some.inj hts
      have hfalse : False := by
        have := sum_amounts_neg (d :: ds') (fun x hx => (hd x hx).1) (by simp)
        simp only [List.map_nil, List.sum_nil, add_zero] at hsum
        linarith
      exact hfalse.elim
  | succ fuel ih =>
    intro ds cs ts hts hd hc hsum hndd hndc
    match ds, cs, hts with
    | [], cs, hts =>
      cases Option.some.inj hts
      have hcs : cs = [] := by
        by_contra hne
        have := sum_amounts_pos cs (fun x hx => (hc x hx).1) hne
        simp only [List.map_nil, List.sum_nil, zero_add] at hsum
        linarith
      subst hcs
      exact ⟨fun d hd' => absurd hd' (List.not_mem_nil d),
        fun c hc' => absurd hc' (List.not_mem_nil c), by simp⟩
    | d :: ds', [], hts =>
      cases Option.some.inj hts
      have hfalse : False := by
        have := sum_amounts_neg (d :: ds') (fun x hx => (hd x hx).1) (by simp)
        simp only [List.map_nil, List.sum_nil, add_zero] at hsum
        linarith
      exact hfalse.elim
    | d :: ds', c :: cs', hts =>
      rw [greedyFuel_succ] at hts
      obtain ⟨ts', hts', rfl⟩ := Option.map_eq_some'.mp hts
      have hd0 := hd d (List.mem_cons_self d ds')
      have hc0 := hc c (List.mem_cons_self c cs')
      have hscent : centMult (min (abs d.amount) c.amount) := hd0.2.abs.min hc0.2
      have hdql : d.amount + min (abs d.amount) c.amount ≤ 0 :=
        greedy_step_dAmt_nonpos (c := c) hd0.1
      have hcql : 0 ≤ c.amount - min (abs d.amount) c.amount := greedy_step_cAmt_nonneg d c
      have hdAmt_cent : centMult (d.amount + min (abs d.amount) c.amount) := hd0.2.add hscent
      have hcAmt_cent : centMult (c.amount - min (abs d.amount) c.amount) := hc0.2.sub hscent
      have hdicho : d.amount + min (abs d.amount) c.amount = 0 ∨
          c.amount - min (abs d.amount) c.amount = 0 := by
        rcases min_cases (abs d.amount) c.amount with ⟨hmin, _⟩ | ⟨hmin, _⟩
        · left
          rw [hmin, abs_of_neg hd0.1]
          ring
        · right
          rw [hmin]
          ring
      have hd_iff : abs (d.amount + min (abs d.amount) c.amount) < 1 / 100 ↔
          d.amount + min (abs d.amount) c.amount = 0 := by
        constructor
        · exact fun h => hdAmt_cent.eq_zero h
        · intro h
          rw [h]
          norm_num
      have hc_iff : c.amount - min (abs d.amount) c.amount < 1 / 100 ↔
          c.amount - min (abs d.amount) c.amount = 0 := by
        constructor
        · intro h
          exact hcAmt_cent.eq_zero (by rwa [abs_of_nonneg hcql])
        · intro h
          rw [h]
          norm_num
      have hsum' : d.amount + (ds'.map BEntry.amount).sum
          + (c.amount + (cs'.map BEntry.amount).sum) = 0 := by
        simpa using hsum
      have hconsd : (d.person :: ds'.map BEntry.person).Nodup := by simpa using hndd
      obtain ⟨hdnotin, hndds'⟩ := List.nodup_cons.mp hconsd
      have hconsc : (c.person :: cs'.map BEntry.person).Nodup := by simpa using hndc
      obtain ⟨hcnotin, hndcs'⟩ := List.nodup_cons.mp hconsc
      by_cases h1 : abs (d.amount + min (abs d.amount) c.amount) < 1 / 100
      · have hdz : d.amount + min (abs d.amount) c.amount = 0 := hd_iff.mp h1
        rw [if_pos h1] at hts'
        by_cases h2 : c.amount - min (abs d.amount) c.amount < 1 / 100
        · have hcz : c.amount - min (abs d.amount) c.amount = 0 := hc_iff.mp h2
          rw [if_pos h2] at hts'
          have hsum2 : (ds'.map BEntry.amount).sum + (cs'.map BEntry.amount).sum = 0 := by
            linarith
          obtain ⟨IH1, IH2, IH3⟩ := ih ds' cs' ts' hts'
            (fun x hx => hd x (List.mem_cons_of_mem _ hx))
            (fun x hx => hc x (List.mem_cons_of_mem _ hx))
            hsum2 hndds' hndcs'
          refine ⟨?_, ?_, ?_⟩
          · intro x hx
            rcases List.mem_cons.mp hx with hxd | hx'
            · rw [hxd, paidBy_cons_eq (p := d.person) ts' rfl,
                paidBy_greedy_zero hts' hdnotin, centMult_roundCents hscent]
              linarith
            · have hxne : x.person ≠ d.person := fun he =>
                hdnotin (he ▸ List.mem_map.mpr ⟨x, hx', rfl⟩)
              rw [paidBy_cons_ne (p := x.person) ts' fun hh => hxne hh.symm]
              exact IH1 x hx'
          · intro x hx
            rcases List.mem_cons.mp hx with hxc | hx'
            · rw [hxc, receivedBy_cons_eq (p := c.person) ts' rfl,
                receivedBy_greedy_zero hts' hcnotin, centMult_roundCents hscent]
              linarith
            · have hxne : x.person ≠ c.person := fun he =>
                hcnotin (he ▸ List.mem_map.mpr ⟨x, hx', rfl⟩)
              rw [receivedBy_cons_ne (p := x.person) ts' fun hh => hxne hh.symm]
              exact IH2 x hx'
          · simp only [List.map_cons, List.sum_cons, IH3, centMult_roundCents hscent]
            linarith
        · have hcne : c.amount - min (abs d.amount) c.amount ≠ 0 := fun h0 =>
            h2 (hc_iff.mpr h0)
          have hcpos : 0 < c.amount - min (abs d.amount) c.amount :=
            lt_of_le_of_ne hcql (Ne.symm hcne)
          rw [if_neg h2] at hts'
          have hsum2 : (ds'.map BEntry.amount).sum +
              (((⟨c.person, c.amount - min (abs d.amount) c.amount⟩ : BEntry) :: cs').map
                BEntry.amount).sum = 0 := by
            simp only [List.map_cons, List.sum_cons]
            linarith
          have hndc2 : ((((⟨c.person, c.amount - min (abs d.amount) c.amount⟩ : BEntry)) ::
              cs').map BEntry.person).Nodup := by
            simpa using hndc
          obtain ⟨IH1, IH2, IH3⟩ := ih ds' _ ts' hts'
            (fun x hx => hd x (List.mem_cons_of_mem _ hx))
            (fun x hx => by
              rcases List.mem_cons.mp hx with hxc | hx'
              · rw [hxc]
                exact ⟨hcpos, hcAmt_cent⟩
              · exact hc x (List.mem_cons_of_mem _ hx'))
            hsum2 hndds' hndc2
          refine ⟨?_, ?_, ?_⟩
          · intro x hx
            rcases List.mem_cons.mp hx with hxd | hx'
            · rw [hxd, paidBy_cons_eq (p := d.person) ts' rfl,
                paidBy_greedy_zero hts' hdnotin, centMult_roundCents hscent]
              linarith
            · have hxne : x.person ≠ d.person := fun he =>
                hdnotin (he ▸ List.mem_map.mpr ⟨x, hx', rfl⟩)
              rw [paidBy_cons_ne (p := x.person) ts' fun hh => hxne hh.symm]
              exact IH1 x hx'
          · intro x hx
            rcases List.mem_cons.mp hx with hxc | hx'
            · rw [hxc, receivedBy_cons_eq (p := c.person) ts' rfl,
                centMult_roundCents hscent]
              have h5 : receivedBy c.person ts'
                  = c.amount - min (abs d.amount) c.amount := by
                simpa using IH2 ⟨c.person, c.amount - min (abs d.amount) c.amount⟩
                  (List.mem_cons_self _ _)
              rw [h5]
              ring
            · have hxne : x.person ≠ c.person := fun he =>
                hcnotin (he ▸ List.mem_map.mpr ⟨x, hx', rfl⟩)
              rw [receivedBy_cons_ne (p := x.person) ts' fun hh => hxne hh.symm]
              exact IH2 x (List.mem_cons_of_mem _ hx')
          · simp only [List.map_cons, List.sum_cons, IH3, centMult_roundCents hscent]
            linarith
      · have hdne : d.amount + min (abs d.amount) c.amount ≠ 0 := fun h0 =>
          h1 (hd_iff.mpr h0)
        have hdneg : d.amount + min (abs d.amount) c.amount < 0 :=
          lt_of_le_of_ne hdql hdne
        have hcz : c.amount - min (abs d.amount) c.amount = 0 := hdicho.resolve_left hdne
        have h2 : c.amount - min (abs d.amount) c.amount < 1 / 100 := hc_iff.mpr hcz
        rw [if_neg h1, if_pos h2] at hts'
        have hsum2 : ((((⟨d.person, d.amount + min (abs d.amount) c.amount⟩ : BEntry)) ::
            ds').map BEntry.amount).sum + (cs'.map BEntry.amount).sum = 0 := by
          simp only [List.map_cons, List.sum_cons]
          linarith
        have hndd2 : ((((⟨d.person, d.amount + min (abs d.amount) c.amount⟩ : BEntry)) ::
            ds').map BEntry.person).Nodup := by
          simpa using hndd
        obtain ⟨IH1, IH2, IH3⟩ := ih _ cs' ts' hts'
          (fun x hx => by
            rcases List.mem_cons.mp hx with hxd | hx'
            · rw [hxd]
              exact ⟨hdneg, hdAmt_cent⟩
            · exact hd x (List.mem_cons_of_mem _ hx'))
          (fun x hx => hc x (List.mem_cons_of_mem _ hx))
          hsum2 hndd2 hndcs'
        refine ⟨?_, ?_, ?_⟩
        · intro x hx
          rcases List.mem_cons.mp hx with hxd | hx'
          · rw [hxd, paidBy_cons_eq (p := d.person) ts' rfl, centMult_roundCents hscent]
            have h5 : paidBy d.person ts'
                = -(d.amount + min (abs d.amount) c.amount) := by
              simpa using IH1 ⟨d.person, d.amount + min (abs d.amount) c.amount⟩
                (List.mem_cons_self _ _)
            rw [h5]
            ring
          · have hxne : x.person ≠ d.person := fun he =>
              hdnotin (he ▸ List.mem_map.mpr ⟨x, hx', rfl⟩)
            rw [paidBy_cons_ne (p := x.person) ts' fun hh => hxne hh.symm]
            exact IH1 x (List.mem_cons_of_mem _ hx')
        · intro x hx
          rcases List.mem_cons.mp hx with hxc | hx'
          · rw [hxc, receivedBy_cons_eq (p := c.person) ts' rfl,
              receivedBy_greedy_zero hts' hcnotin, centMult_roundCents hscent]
            linarith
          · have hxne : x.person ≠ c.person := fun he =>
              hcnotin (he ▸ List.mem_map.mpr ⟨x, hx', rfl⟩)
            rw [receivedBy_cons_ne (p := x.person) ts' fun hh => hxne hh.symm]
            exact IH2 x hx'
        · simp only [List.map_cons, List.sum_cons, IH3, centMult_roundCents hscent]
          linarith

/-! ### Partition bookkeeping for the amended claims C2 and C4 -/

lemma centMult_small_ne {q : ℚ} (h : centMult q) (h1 : -(1 / 100) ≤ q) (h2 : q ≤ 1 / 100)
    (h3 : q ≠ 1 / 100) (h4 : q ≠ -(1 / 100)) : q = 0 := by
  obtain ⟨k, rfl⟩ := h
  have hb1 : (-1 : ℚ) ≤ (k : ℚ) := by linarith
  have hb2 : (k : ℚ) ≤ 1 := by linarith
  have hk1 : (-1 : ℤ) ≤ k := by exact_mod_cast hb1
  have hk2 : k ≤ 1 := by exact_mod_cast hb2
  interval_cases k
  · exact absurd (by norm_num) h4
  · norm_num
  · exact absurd (by norm_num) h3

lemma settleEntries_cons (pv : String × ℚ) (rest : List (String × ℚ))
    (hc : centMult pv.2) :
    settleEntries (pv :: rest) = ⟨pv.1, pv.2⟩ :: settleEntries rest := by
  simp [settleEntries, centMult_roundCents hc]

lemma debtors_cons (pv : String × ℚ) (rest : List (String × ℚ)) (hc : centMult pv.2) :
    debtors (pv :: rest)
      = if pv.2 < -(1 / 100) then ⟨pv.1, pv.2⟩ :: debtors rest else debtors rest := by
  rw [debtors, settleEntries_cons pv rest hc, List.filter_cons]
  by_cases h : pv.2 < -(1 / 100) <;> simp [h, debtors]

lemma creditors_cons (pv : String × ℚ) (rest : List (String × ℚ)) (hc : centMult pv.2) :
    creditors (pv :: rest)
      = if (1 / 100 : ℚ) < pv.2 then ⟨pv.1, pv.2⟩ :: creditors rest else creditors rest := by
  rw [creditors, settleEntries_cons pv rest hc, List.filter_cons]
  by_cases h : (1 / 100 : ℚ) < pv.2 <;> simp [h, creditors]

lemma partition_sum (bal : List (String × ℚ))
    (hcent : ∀ pv ∈ bal, centMult pv.2)
    (hne : ∀ pv ∈ bal, pv.2 ≠ 1 / 100 ∧ pv.2 ≠ -(1 / 100)) :
    ((debtors bal).map BEntry.amount).sum + ((creditors bal).map BEntry.amount).sum
      = (bal.map Prod.snd).sum := by
  induction bal with
  | nil => simp [debtors, creditors, settleEntries]
  | cons pv rest ih =>
    have hcent0 := hcent pv (List.mem_cons_self pv rest)
    have hne0 := hne pv (List.mem_cons_self pv rest)
    have hcentR : ∀ q ∈ rest, centMult q.2 := fun q hq => hcent q (List.mem_cons_of_mem _ hq)
    have hneR : ∀ q ∈ rest, q.2 ≠ 1 / 100 ∧ q.2 ≠ -(1 / 100) := fun q hq =>
      hne q (List.mem_cons_of_mem _ hq)
    have hrec := ih hcentR hneR
    rw [debtors_cons pv rest hcent0, creditors_cons pv rest hcent0]
    by_cases h1 : pv.2 < -(1 / 100)
    · have h2 : ¬ ((1 / 100 : ℚ) < pv.2) := by intro h; linarith
      rw [if_pos h1, if_neg h2]
      simp only [List.map_cons, List.sum_cons]
      linarith
    · by_cases h2 : (1 / 100 : ℚ) < pv.2
      · rw [if_neg h1, if_pos h2]
        simp only [List.map_cons, List.sum_cons]
        linarith
      · have h0 : pv.2 = 0 :=
          centMult_small_ne hcent0 (by linarith) (by linarith) hne0.1 hne0.2
        rw [if_neg h1, if_neg h2]
        simp only [List.map_cons, List.sum_cons, h0]
        linarith

lemma creditors_sum_max (bal : List (String × ℚ))
    (hcent : ∀ pv ∈ bal, centMult pv.2)
    (hne : ∀ pv ∈ bal, pv.2 ≠ 1 / 100 ∧ pv.2 ≠ -(1 / 100)) :
    ((creditors bal).map BEntry.amount).sum = (bal.map fun pv => max pv.2 0).sum := by
  induction bal with
  | nil => simp [creditors, settleEntries]
  | cons pv rest ih =>
    have hcent0 := hcent pv (List.mem_cons_self pv rest)
    have hne0 := hne pv (List.mem_cons_self pv rest)
    have hcentR : ∀ q ∈ rest, centMult q.2 := fun q hq => hcent q (List.mem_cons_of_mem _ hq)
    have hneR : ∀ q ∈ rest, q.2 ≠ 1 / 100 ∧ q.2 ≠ -(1 / 100) := fun q hq =>
      hne q (List.mem_cons_of_mem _ hq)
    have hrec := ih hcentR hneR
    rw [creditors_cons pv rest hcent0]
    by_cases h2 : (1 / 100 : ℚ) < pv.2
    · have hmax : max pv.2 0 = pv.2 := max_eq_left (by linarith)
      rw [if_pos h2]
      simp only [List.map_cons, List.sum_cons, hmax]
      linarith
    · have hle : pv.2 ≤ 0 := by
        by_contra hpos
        push_neg at hpos
        have h0 : pv.2 = 0 :=
          centMult_small_ne hcent0 (by linarith) (by linarith) hne0.1 hne0.2
        linarith
      have hmax : max pv.2 0 = 0 := max_eq_right hle
      rw [if_neg h2]
      simp only [List.map_cons, List.sum_cons, hmax]
      linarith

lemma settleEntries_keys_nodup {bal : List (String × ℚ)}
    (hnd : (bal.map Prod.fst).Nodup) :
    ((settleEntries bal).map BEntry.person).Nodup := by
  have hmap : (settleEntries bal).map BEntry.person = bal.map Prod.fst := by
    simp [settleEntries, List.map_map, Function.comp]
  rwa [hmap]

lemma mem_entries_self {bal : List (String × ℚ)} {pv : String × ℚ} (hpv : pv ∈ bal)
    (hc : centMult pv.2) : (⟨pv.1, pv.2⟩ : BEntry) ∈ settleEntries bal := by
  have h : (⟨pv.1, roundCents pv.2⟩ : BEntry) ∈ settleEntries bal :=
    List.mem_map.mpr ⟨pv, hpv, rfl⟩
  rwa [centMult_roundCents hc] at h

lemma debtors_persons_nodup {bal : List (String × ℚ)}
    (hnd : (bal.map Prod.fst).Nodup) :
    ((debtors bal).map BEntry.person).Nodup :=
  ((List.filter_sublist _).map BEntry.person).nodup (settleEntries_keys_nodup hnd)

lemma creditors_persons_nodup {bal : List (String × ℚ)}
    (hnd : (bal.map Prod.fst).Nodup) :
    ((creditors bal).map BEntry.person).Nodup :=
  ((List.filter_sublist _).map BEntry.person).nodup (settleEntries_keys_nodup hnd)

lemma sortedDebtors_persons_nodup {bal : List (String × ℚ)}
    (hnd : (bal.map Prod.fst).Nodup) :
    ((sortedDebtors bal).map BEntry.person).Nodup :=
  ((List.perm_insertionSort _ _).map BEntry.person).nodup_iff.mpr (debtors_persons_nodup hnd)

lemma sortedCreditors_persons_nodup {bal : List (String × ℚ)}
    (hnd : (bal.map Prod.fst).Nodup) :
    ((sortedCreditors bal).map BEntry.person).Nodup :=
  ((List.perm_insertionSort _ _).map BEntry.person).nodup_iff.mpr (creditors_persons_nodup hnd)

lemma sortedDebtors_sum (bal : List (String × ℚ)) :
    ((sortedDebtors bal).map BEntry.amount).sum = ((debtors bal).map BEntry.amount).sum :=
  ((List.perm_insertionSort _ _).map BEntry.amount).sum_eq

lemma sortedCreditors_sum (bal : List (String × ℚ)) :
    ((sortedCreditors bal).map BEntry.amount).sum = ((creditors bal).map BEntry.amount).sum :=
  ((List.perm_insertionSort _ _).map BEntry.amount).sum_eq

/-- Under the hypotheses of the amended claims C2 and C4 the settlement run:
pays every participant back to a balance of exactly zero, and moves a
transaction total equal to the total positive balance. -/
lemma settlements_spec (bal : List (String × ℚ))
    (hnd : (bal.map Prod.fst).Nodup)
    (hcent : ∀ pv ∈ bal, centMult pv.2)
    (hsum : (bal.map Prod.snd).sum = 0)
    (hne : ∀ pv ∈ bal, pv.2 ≠ 1 / 100 ∧ pv.2 ≠ -(1 / 100)) :
    (∀ pv ∈ bal, pv.2 + paidBy pv.1 (calculateSettlements bal)
        - receivedBy pv.1 (calculateSettlements bal) = 0) ∧
    ((calculateSettlements bal).map Txn.amount).sum
      = (bal.map fun pv => max pv.2 0).sum := by
  have hts := settlement_budget_some bal
  have hkeys := settleEntries_keys_nodup hnd
  have hsort_sum : ((sortedDebtors bal).map BEntry.amount).sum
      + ((sortedCreditors bal).map BEntry.amount).sum = 0 := by
    rw [sortedDebtors_sum, sortedCreditors_sum, partition_sum bal hcent hne, hsum]
  obtain ⟨hExact1, hExact2, hExact3⟩ :=
    greedyFuel_exact _ _ _ _ hts
      (fun d hd => ⟨sortedDebtors_neg bal d hd, sortedDebtors_cent bal d hd⟩)
      (fun c hc => ⟨sortedCreditors_pos bal c hc, sortedCreditors_cent bal c hc⟩)
      hsort_sum (sortedDebtors_persons_nodup hnd) (sortedCreditors_persons_nodup hnd)
  constructor
  · intro pv hpv
    have hcent0 := hcent pv hpv
    have hne0 := hne pv hpv
    have hnotd : ¬ pv.2 < -(1 / 100) → pv.1 ∉ (sortedDebtors bal).map BEntry.person := by
      intro hno hmem
      obtain ⟨e, he, hpe⟩ := List.mem_map.mp hmem
      have hed : e ∈ debtors bal := mem_sortedDebtors.mp he
      have hee : e ∈ settleEntries bal := List.mem_of_mem_filter hed
      have heq : e = ⟨pv.1, pv.2⟩ :=
        List.inj_on_of_nodup_map hkeys hee (mem_entries_self hpv hcent0) (by rw [hpe])
      have := mem_debtors_amount hed
      rw [heq] at this
      exact hno this
    have hnotc : ¬ (1 / 100 : ℚ) < pv.2 → pv.1 ∉ (sortedCreditors bal).map BEntry.person := by
      intro hno hmem
      obtain ⟨e, he, hpe⟩ := List.mem_map.mp hmem
      have hec : e ∈ creditors bal := mem_sortedCreditors.mp he
      have hee : e ∈ settleEntries bal := List.mem_of_mem_filter hec
      have heq : e = ⟨pv.1, pv.2⟩ :=
        List.inj_on_of_nodup_map hkeys hee (mem_entries_self hpv hcent0) (by rw [hpe])
      have := mem_creditors_amount hec
      rw [heq] at this
      exact hno this
    by_cases h1 : pv.2 < -(1 / 100)
    · have hmemd : (⟨pv.1, pv.2⟩ : BEntry) ∈ sortedDebtors bal :=
        mem_sortedDebtors.mpr (List.mem_filter.mpr
          ⟨mem_entries_self hpv hcent0, by simpa using h1⟩)
      have hpaid : paidBy pv.1 (calculateSettlements bal) = -pv.2 := by
        simpa using hExact1 ⟨pv.1, pv.2⟩ hmemd
      have hrecv : receivedBy pv.1 (calculateSettlements bal) = 0 :=
        receivedBy_greedy_zero hts (hnotc (by intro h; linarith))
      rw [hpaid, hrecv]
      ring
    · by_cases h2 : (1 / 100 : ℚ) < pv.2
      · have hmemc : (⟨pv.1, pv.2⟩ : BEntry) ∈ sortedCreditors bal :=
          mem_sortedCreditors.mpr (List.mem_filter.mpr
            ⟨mem_entries_self hpv hcent0, by simpa using h2⟩)
        have hrecv : receivedBy pv.1 (calculateSettlements bal) = pv.2 := by
          simpa using hExact2 ⟨pv.1, pv.2⟩ hmemc
        have hpaid : paidBy pv.1 (calculateSettlements bal) = 0 :=
          paidBy_greedy_zero hts (hnotd h1)
        rw [hpaid, hrecv]
        ring
      · have h0 : pv.2 = 0 :=
          centMult_small_ne hcent0 (by linarith) (by linarith) hne0.1 hne0.2
        have hpaid : paidBy pv.1 (calculateSettlements bal) = 0 :=
          paidBy_greedy_zero hts (hnotd h1)
        have hrecv : receivedBy pv.1 (calculateSettlements bal) = 0 :=
          receivedBy_greedy_zero hts (hnotc h2)
        rw [hpaid, hrecv, h0]
        ring
  · rw [hExact3, sortedCreditors_sum, creditors_sum_max bal hcent hne]

/-- C2 (amended): for a balance map with distinct keys whose values are all
whole numbers of cents, sum to exactly zero, and none of which equals
`0.01` or `-0.01`, applying every transaction emitted by the settlement
algorithm back to the map (crediting the paying debtor, debiting the paid
creditor, as the algorithm itself adjusts its work lists) leaves every
balance within `±0.01` of zero (in fact exactly zero). -/
theorem applySettlements_zeroes (bal : List (String × ℚ))
    (hnd : (bal.map Prod.fst).Nodup)
    (hcent : ∀ pv ∈ bal, centMult pv.2)
    (hsum : (bal.map Prod.snd).sum = 0)
    (hne : ∀ pv ∈ bal, pv.2 ≠ 1 / 100 ∧ pv.2 ≠ -(1 / 100)) :
    ∀ pv ∈ applySettlements (calculateSettlements bal) bal, |pv.2| ≤ 1 / 100 := by
  intro pv hpv
  obtain ⟨pv0, hpv0, rfl⟩ := List.mem_map.mp hpv
  have h := (settlements_spec bal hnd hcent hsum hne).1 pv0 hpv0
  show |pv0.2 + paidBy pv0.1 (calculateSettlements bal)
      - receivedBy pv0.1 (calculateSettlements bal)| ≤ 1 / 100
  rw [h]
  norm_num

/-- Counterexample to C2 as frozen (universally quantified over all balance
maps): for the zero-sum integer-cent map `A ↦ 0.01, B ↦ 0.01, C ↦ -0.02`
the partition classifies only `C` as a debtor (the two `0.01` balances are
not strictly above the tolerance), no transaction is emitted, and `C`'s
balance stays at `-0.02`, outside `±0.01`. -/
theorem applySettlements_counterexample :
    ¬ (∀ pv ∈ applySettlements
        (calculateSettlements [("A", 1 / 100), ("B", 1 / 100), ("C", -(1 / 50))])
        [("A", 1 / 100), ("B", 1 / 100), ("C", -(1 / 50))], |pv.2| ≤ 1 / 100) := by
  have heval : calculateSettlements [("A", 1 / 100), ("B", 1 / 100), ("C", -(1 / 50))]
      = [] := by
    norm_num [calculateSettlements, sortedDebtors, sortedCreditors, debtors, creditors,
      settleEntries, roundCents, List.insertionSort, List.orderedInsert, greedyFuel,
      abs_of_nonneg, abs_of_nonpos]
  intro h
  rw [heval] at h
  have hC := h ("C", -(1 / 50) + paidBy "C" [] - receivedBy "C" [])
    (List.mem_map.mpr ⟨("C", -(1 / 50)), by simp, rfl⟩)
  simp only [paidBy_nil, receivedBy_nil] at hC
  norm_num [abs_of_nonpos] at hC

/-- Witness for the amended C2: the balance of participant `A` of the
concrete zero-sum integer-cent map, after the emitted transactions are
applied back, is within the tolerance. -/
theorem applySettlements_zeroes_witness :
    |(3 : ℚ) / 100
        + paidBy "A" (calculateSettlements [("A", 3 / 100), ("B", -(3 / 100))])
        - receivedBy "A" (calculateSettlements [("A", 3 / 100), ("B", -(3 / 100))])|
      ≤ 1 / 100 := by
  have h := applySettlements_zeroes [("A", 3 / 100), ("B", -(3 / 100))] (by decide)
    (by
      intro pv hpv
      rcases List.mem_cons.mp hpv with rfl | hpv'
      · exact ⟨3, by norm_num⟩
      · rcases List.mem_cons.mp hpv' with rfl | hpv''
        · exact ⟨-3, by norm_num⟩
        · cases hpv'')
    (by norm_num)
    (by
      intro pv hpv
      rcases List.mem_cons.mp hpv with rfl | hpv'
      · constructor <;> norm_num
      · rcases List.mem_cons.mp hpv' with rfl | hpv''
        · constructor <;> norm_num
        · cases hpv'')
  exact h ("A", 3 / 100
      + paidBy "A" (calculateSettlements [("A", 3 / 100), ("B", -(3 / 100))])
      - receivedBy "A" (calculateSettlements [("A", 3 / 100), ("B", -(3 / 100))]))
    (List.mem_map.mpr ⟨("A", 3 / 100), List.mem_cons_self _ _, rfl⟩)

/-- C4 (amended): for a balance map with distinct keys whose values are all
whole numbers of cents, sum to exactly zero, and none of which equals
`0.01` or `-0.01`, the sum of the emitted transaction amounts equals the
total credit `sum (max b 0)` of the balance map, within the rounding
tolerance `0.01` (in fact exactly). -/
theorem settlement_conservation (bal : List (String × ℚ))
    (hnd : (bal.map Prod.fst).Nodup)
    (hcent : ∀ pv ∈ bal, centMult pv.2)
    (hsum : (bal.map Prod.snd).sum = 0)
    (hne : ∀ pv ∈ bal, pv.2 ≠ 1 / 100 ∧ pv.2 ≠ -(1 / 100)) :
    |((calculateSettlements bal).map Txn.amount).sum
      - (bal.map fun pv => max pv.2 0).sum| ≤ 1 / 100 := by
  rw [(settlements_spec bal hnd hcent hsum hne).2, sub_self]
  norm_num

/-- Counterexample to C4 as frozen (universally quantified over all balance
maps): on the unbalanced map `A ↦ 5` there are no debtors, the loop never
runs and no transaction is emitted, while the total credit is `5`; the
residual is silently dropped, so the difference `5` far exceeds the
tolerance. -/
theorem settlement_conservation_counterexample :
    ¬ (|((calculateSettlements [("A", (5 : ℚ))]).map Txn.amount).sum
      - ([("A", (5 : ℚ))].map fun pv => max pv.2 0).sum| ≤ 1 / 100) := by
  have heval : calculateSettlements [("A", (5 : ℚ))] = [] := by
    norm_num [calculateSettlements, sortedDebtors, sortedCreditors, debtors, creditors,
      settleEntries, roundCents, List.insertionSort, List.orderedInsert, greedyFuel,
      abs_of_nonneg, abs_of_nonpos]
  rw [heval]
  norm_num [max_eq_left, abs_of_nonpos]

/-- Witness for the amended C4 at a concrete zero-sum integer-cent map. -/
theorem settlement_conservation_witness :
    |((calculateSettlements [("A", 3 / 100), ("B", -(3 / 100))]).map Txn.amount).sum
      - ([("A", 3 / 100), ("B", -(3 / 100))].map fun pv => max pv.2 0).sum| ≤ 1 / 100 := by
  refine settlement_conservation _ (by decide) ?_ (by norm_num) ?_
  · intro pv hpv
    rcases List.mem_cons.mp hpv with rfl | hpv'
    · exact ⟨3, by norm_num⟩
    · rcases List.mem_cons.mp hpv' with rfl | hpv''
      · exact ⟨-3, by norm_num⟩
      · cases hpv''
  · intro pv hpv
    rcases List.mem_cons.mp hpv with rfl | hpv'
    · constructor <;> norm_num
    · rcases List.mem_cons.mp hpv' with rfl | hpv''
      · constructor <;> norm_num
      · cases hpv''

end Schneegerverteiler
